import Mathlib

/-!
Verification development for the LunarLander A2C notebook (`a2c.ipynb`).

The training-loop pipeline is embedded shallowly:

* rewards, scores, log-probabilities and value estimates are modelled as
  rationals (the Python floats enter only through the opaque environment
  and modules, so exact arithmetic is the faithful idealisation of the
  *control* and *sequence* structure these claims are about);
* the Return Standardizer, whose claims are genuinely numeric
  (mean / standard deviation / epsilon), is embedded over the reals, with
  the NaN produced by `torch.std` on sequences of length `<= 1` modelled
  as `Option.none`;
* the opaque environment is modelled by the trace of its `step` results,
  and the opaque policy / value modules by the trace of the log-probability
  and value they return at each step: quantifying over all traces is
  exactly quantifying over all behaviours of the opaque collaborators;
* the autograd / optimizer layer (external to the repository; its contract
  is fixed by the spec, section 6) is modelled by tensors carrying the set
  of modules their computation graph reaches, with `detach` erasing that
  set, and an optimizer step that updates only the module it was built for.
-/

namespace LunarA2C

/-! ## Trajectory generation (`generate_trajectory`)

One loop iteration of the source queries the policy for
`(action, log_prob)`, the value network for `value`, and the environment
for `(next_state, reward, done, truncated)`; it appends
`(log_prob, reward, value)` and breaks if `done`.  A `StepRecord` packs
the data produced at one step of that interaction; a function
`ℕ → StepRecord` is the trace of one episode. -/

/-- What one iteration of the rollout loop observes: the log-probability
returned by `policy.act`, the value estimate returned by
`value_function(state)`, and the `(reward, done)` pair returned by
`env.step(action)`.  The `truncated` flag returned by the environment is
ignored by the source loop, so it is not recorded. -/
structure StepRecord where
  log_prob : ℚ
  reward : ℚ
  value : ℚ
  done : Bool

/-- The rollout loop of `generate_trajectory`, recursion on the remaining
step budget; `i` is the current step index into the trace.  Mirrors:
`for step in range(max_steps): ... append ...; if done: break`.
The record of the terminating step is appended before the break. -/
def generate_trajectory_aux (tr : ℕ → StepRecord) : ℕ → ℕ → List ℚ × List ℚ × List ℚ
  | 0, _ => ([], [], [])
  | fuel + 1, i =>
    let r := tr i
    if r.done then ([r.log_prob], [r.reward], [r.value])
    else
      let rest := generate_trajectory_aux tr fuel (i + 1)
      (r.log_prob :: rest.1, r.reward :: rest.2.1, r.value :: rest.2.2)

/-- `generate_trajectory(policy, value_function, max_steps)`: returns the
triple `(log_probs, rewards, state_values)` recorded during one episode
driven by the trace `tr`. -/
def generate_trajectory (tr : ℕ → StepRecord) (max_steps : ℕ) :
    List ℚ × List ℚ × List ℚ :=
  generate_trajectory_aux tr max_steps 0

/-! ## Return calculation (`calculate_discounted_returns`) -/

/-- `collections.deque(maxlen := m).appendleft x` on a deque currently
holding `d` (leftmost first): the new element goes to the front and, if
the deque already holds `m` items, the rightmost one is discarded. -/
def dequeAppendleft (m : ℕ) (x : ℚ) (d : List ℚ) : List ℚ :=
  List.take m (x :: d)

/-- `calculate_discounted_returns(rewards, max_steps, gamma)`: iterates
over the reward indices in reverse (`for step in range(n_steps)[::-1]`),
reading the current front of the deque (`returns[0] if len(returns) > 0
else 0`) and pushing `rewards[step] + gamma * disc_return` with
`appendleft` on a deque of `maxlen = max_steps`.  `List.foldr` performs
exactly this right-to-left pass. -/
def calculate_discounted_returns (rewards : List ℚ) (max_steps : ℕ) (gamma : ℚ) :
    List ℚ :=
  rewards.foldr
    (fun r returns => dequeAppendleft max_steps (r + gamma * returns.headD 0) returns)
    []

/-- The same backward recursion with no deque capacity: the reference
form of the discounted-return sequence, used to state what
`calculate_discounted_returns` computes when no truncation occurs. -/
def returnsFull (gamma : ℚ) : List ℚ → List ℚ
  | [] => []
  | r :: rest =>
    let returns := returnsFull gamma rest
    (r + gamma * returns.headD 0) :: returns

/-! ## The rolling score window and the training driver (`train_agent`) -/

/-- The last `n` elements of a list, in order. -/
def lastN (n : ℕ) (l : List ℚ) : List ℚ :=
  l.drop (l.length - n)

/-- `np.mean` over a rational list. -/
def listMean (l : List ℚ) : ℚ :=
  l.sum / l.length

/-- `deque(maxlen := 100).append x` on a deque holding `w` (oldest
first): the new element goes to the back and, if the deque already holds
100 items, the oldest (leftmost) one is evicted — i.e. the deque always
holds the most recent 100 values appended. -/
def windowAppend (w : List ℚ) (x : ℚ) : List ℚ :=
  lastN 100 (w ++ [x])

/-- The score of episode `i`: the sum of the rewards of the trajectory
generated for it (`episode_score = sum(rewards)` in `train_agent`). -/
def episodeScore (epTraj : ℕ → ℕ → StepRecord) (max_steps : ℕ) (i : ℕ) : ℚ :=
  (generate_trajectory (epTraj i) max_steps).2.1.sum

/-- The episode loop of `train_agent`, recursion on the remaining episode
budget; `i` is the index (0-based) of the episode about to run.  Each
iteration rolls out a trajectory, records its score in the rolling window
and the permanent history, and — when a threshold is configured and the
window is full — breaks as soon as the window mean reaches the threshold.
The calls to `calculate_discounted_returns`, `standardise_returns`,
`optimise_value_function` and `optimise_policy` mutate only the external
modules' parameters and print nothing into the returned history, so they
do not appear in the value computed here; likewise the `log_interval`
branch only prints. -/
def train_agent_aux (epTraj : ℕ → ℕ → StepRecord) (max_steps : ℕ)
    (threshold : Option ℚ) : ℕ → ℕ → List ℚ → List ℚ → List ℚ
  | 0, _, _, scores => scores
  | fuel + 1, i, recent, scores =>
    let episode_score := episodeScore epTraj max_steps i
    let recent' := windowAppend recent episode_score
    let scores' := scores ++ [episode_score]
    match threshold with
    | none => train_agent_aux epTraj max_steps none fuel (i + 1) recent' scores'
    | some th =>
      if recent'.length = 100 ∧ th ≤ listMean recent' then scores'
      else train_agent_aux epTraj max_steps (some th) fuel (i + 1) recent' scores'

/-- `train_agent(...)`: runs up to `num_episodes` episodes starting from
an empty rolling window and empty score history, and returns the
per-episode score history. -/
def train_agent (epTraj : ℕ → ℕ → StepRecord) (num_episodes max_steps : ℕ)
    (threshold : Option ℚ) : List ℚ :=
  train_agent_aux epTraj max_steps threshold num_episodes 0 [] []

/-- The early-stopping condition checked by `train_agent` after episode
`e` has been pushed: the window holds exactly 100 scores (its `maxlen`)
and their mean has reached the threshold.  After `e` episodes the window
holds the last 100 of the first `e` scores. -/
def stopCond (s : ℕ → ℚ) (th : ℚ) (e : ℕ) : Prop :=
  (lastN 100 ((List.range e).map s)).length = 100 ∧
    th ≤ listMean (lastN 100 ((List.range e).map s))

instance (s : ℕ → ℚ) (th : ℚ) (e : ℕ) : Decidable (stopCond s th e) :=
  instDecidableAnd

/-! ## The evaluation driver (`evaluate`)

The inner loop of `evaluate` only needs the `(reward, done)` part of each
step, so one episode is a trace `ℕ → ℚ × Bool`.  After the loop the
source reads `step + 1`, the Python loop variable left over from the last
executed iteration — which is the number of iterations executed; if
`max_steps = 0` the loop body never runs and that read raises a
`NameError`, modelled by `Option.none`. -/

/-- The inner loop of `evaluate`: `i` is the current step index, `acc`
the accumulated `episode_reward`; returns the pair
`(episode_reward, step + 1)`. -/
def evalEpisodeAux (tr : ℕ → ℚ × Bool) : ℕ → ℕ → ℚ → ℚ × ℕ
  | 0, i, acc => (acc, i)
  | fuel + 1, i, acc =>
    let rd := tr i
    let acc' := acc + rd.1
    if rd.2 then (acc', i + 1) else evalEpisodeAux tr fuel (i + 1) acc'

/-- One episode of `evaluate`: `none` models the `NameError` raised on
`step + 1` when `max_steps = 0` (the loop variable is never bound). -/
def evalEpisode (tr : ℕ → ℚ × Bool) (max_steps : ℕ) : Option (ℚ × ℕ) :=
  if max_steps = 0 then none else some (evalEpisodeAux tr max_steps 0 0)

/-- Total reward accumulated by one episode of `evaluate`. -/
def episodeReward (tr : ℕ → ℚ × Bool) (max_steps : ℕ) : ℚ :=
  (evalEpisodeAux tr max_steps 0 0).1

/-- Number of steps taken by one episode of `evaluate` (the `step + 1`
the source appends). -/
def episodeSteps (tr : ℕ → ℚ × Bool) (max_steps : ℕ) : ℕ :=
  (evalEpisodeAux tr max_steps 0 0).2

/-- The episode loop of `evaluate`, episodes `i, i+1, ...` for the given
remaining budget; builds `all_rewards` and `all_steps` in order. -/
def evaluateFrom (epTraj : ℕ → ℕ → ℚ × Bool) (max_steps : ℕ) :
    ℕ → ℕ → Option (List ℚ × List ℕ)
  | _, 0 => some ([], [])
  | i, n + 1 =>
    match evalEpisode (epTraj i) max_steps with
    | none => none
    | some rs =>
      match evaluateFrom epTraj max_steps (i + 1) n with
      | none => none
      | some rest => some (rs.1 :: rest.1, rs.2 :: rest.2)

/-- Mean of a list of step counts, as `np.mean` computes it. -/
def natListMean (l : List ℕ) : ℚ :=
  (l.map (fun n => (n : ℚ))).sum / l.length

/-- `evaluate(policy, env, num_episodes, max_steps)`: returns
`(all_rewards, all_steps)` together with the reported
`avg_reward = np.mean(all_rewards)` and `avg_steps = np.mean(all_steps)`.
No optimizer and no value module is ever consulted, so no parameter state
appears in (or is changed by) this function. -/
def evaluate (epTraj : ℕ → ℕ → ℚ × Bool) (num_episodes max_steps : ℕ) :
    Option (List ℚ × List ℕ × ℚ × ℚ) :=
  match evaluateFrom epTraj max_steps 0 num_episodes with
  | none => none
  | some rs => some (rs.1, rs.2, listMean rs.1, natListMean rs.2)

/-! ## Return standardisation (`standardise_returns`)

This is the one genuinely numeric component, embedded over `ℝ`.
`torch.std` uses the Bessel-corrected sample standard deviation
(denominator `n - 1`); on a tensor with at most one element it produces
`NaN`, which then contaminates the whole output — modelled by
`Option.none`.  The epsilon is `np.finfo(np.float32).eps = 2 ^ (-23)`. -/

/-- `np.finfo(np.float32).eps.item()`: the machine epsilon of
single-precision floats, `2 ^ (-23)`. -/
noncomputable def eps32 : ℝ := 1 / 2 ^ 23

/-- `tensor.mean()` over a real list. -/
noncomputable def listMeanR (l : List ℝ) : ℝ :=
  l.sum / l.length

/-- `tensor.std()`'s square: the Bessel-corrected sample variance
(denominator `n - 1`); `none` models the `NaN` `torch.std` yields on
fewer than two elements. -/
noncomputable def sampleVar (l : List ℝ) : Option ℝ :=
  if l.length ≤ 1 then none
  else some ((l.map (fun x => (x - listMeanR l) ^ 2)).sum / ((l.length : ℝ) - 1))

/-- `tensor.std()`: square root of the sample variance. -/
noncomputable def std (l : List ℝ) : Option ℝ :=
  (sampleVar l).map Real.sqrt

/-- `standardise_returns(returns)`:
`(returns - returns.mean()) / (returns.std() + eps)`, elementwise;
`none` models the all-`NaN` output produced when `returns.std()` is
`NaN`. -/
noncomputable def standardise_returns (returns : List ℝ) : Option (List ℝ) :=
  (std returns).map
    (fun s => returns.map (fun x => (x - listMeanR returns) / (s + eps32)))

/-! ## The optimisation steps (`optimise_policy`, `optimise_value_function`)

The networks, autograd and the two `Adam` optimizers are external to the
repository; the spec (section 6) fixes their contract: `backward`
populates the gradient buffers of exactly the parameter sets the loss's
computation graph reaches, `detach` cuts the graph, and each optimizer's
`step()` mutates only the module it was constructed for.  A `DTensor` is
a scalar tensor carrying the set of modules its graph reaches; the
parameter and gradient buffers of the two modules form an `OptimState`.
The numeric content of the gradient and of the `Adam` update is opaque,
so the theorems quantify over arbitrary accumulation functions `gp`,
`gv` and update functions for `step`. -/

/-- The two trainable modules of the program. -/
inductive NetKind where
  | policyNet
  | valueNet
deriving DecidableEq

/-- A scalar tensor: its value and the set of modules reached by its
computation graph (the modules a `backward` from it would populate
gradients for). -/
structure DTensor where
  val : ℚ
  deps : Finset NetKind

/-- `tensor.detach()` (and equally `torch.tensor(existing_data)`): same
value, cut off from the computation graph. -/
def DTensor.detach (t : DTensor) : DTensor :=
  ⟨t.val, ∅⟩

/-- Elementwise tensor addition: values add, graphs merge. -/
def DTensor.add (a b : DTensor) : DTensor :=
  ⟨a.val + b.val, a.deps ∪ b.deps⟩

/-- Elementwise tensor subtraction: values subtract, graphs merge. -/
def DTensor.sub (a b : DTensor) : DTensor :=
  ⟨a.val - b.val, a.deps ∪ b.deps⟩

/-- Elementwise tensor multiplication: values multiply, graphs merge. -/
def DTensor.mul (a b : DTensor) : DTensor :=
  ⟨a.val * b.val, a.deps ∪ b.deps⟩

/-- Tensor negation (`-log_prob`). -/
def DTensor.neg (a : DTensor) : DTensor :=
  ⟨-a.val, a.deps⟩

/-- `tensor.sum()` over a list of scalar tensors. -/
def dsum (l : List DTensor) : DTensor :=
  l.foldr DTensor.add ⟨0, ∅⟩

/-- `F.mse_loss(pred, target)`: mean of elementwise squared differences;
its graph reaches whatever the inputs' graphs reach. -/
def mse_loss (pred target : List DTensor) : DTensor :=
  let diffs := (pred.zip target).map (fun p => (p.1.sub p.2).mul (p.1.sub p.2))
  ⟨(dsum diffs).val / (pred.length : ℚ), (dsum diffs).deps⟩

/-- The parameter and gradient buffers of the two modules.  `P` is the
(opaque) type of a module's parameter set, `G` of a gradient buffer. -/
structure OptimState (P G : Type) where
  pparams : P
  vparams : P
  pgrad : G
  vgrad : G

/-- Modelled from the spec: `loss.backward()` accumulates a gradient
contribution into the buffer of each module reached by the loss's
computation graph and touches nothing else.  `gp` and `gv` are the
opaque accumulation functions. -/
def backward {P G : Type} (gp gv : DTensor → G → G) (loss : DTensor)
    (s : OptimState P G) : OptimState P G :=
  { s with
    pgrad := if NetKind.policyNet ∈ loss.deps then gp loss s.pgrad else s.pgrad
    vgrad := if NetKind.valueNet ∈ loss.deps then gv loss s.vgrad else s.vgrad }

/-- `optimise_policy(policy_optimizer, log_probs, returns, state_values)`:
`advantages = returns - state_values.detach()`, re-wrapped by
`torch.tensor(...)` (the second detach); `policy_loss` is the sum of
`-log_prob * advantage`; then `policy_optimizer.zero_grad()`,
`policy_loss.backward()`, `policy_optimizer.step()`.  `stepP` is the
opaque Adam update of the policy optimizer and `g0` its cleared gradient
buffer; per the spec's optimizer contract they touch only the policy
module's buffers.  (`torch.stack(state_values).squeeze()` is a pure
reshape and leaves a list of scalars unchanged.) -/
def optimise_policy {P G : Type} (gp gv : DTensor → G → G) (stepP : P → G → P)
    (g0 : G) (log_probs returns state_values : List DTensor)
    (s : OptimState P G) : OptimState P G :=
  let advantages := (returns.zip state_values).map
    (fun rv => (rv.1.sub rv.2.detach).detach)
  let policy_loss := dsum ((log_probs.zip advantages).map
    (fun la => la.1.neg.mul la.2))
  let s1 := { s with pgrad := g0 }
  let s2 := backward gp gv policy_loss s1
  { s2 with pparams := stepP s2.pparams s2.pgrad }

/-- `optimise_value_function(value_optimizer, returns, state_values)`:
`value_loss = F.mse_loss(state_values, returns)`; then
`value_optimizer.zero_grad()`, `value_loss.backward()`,
`value_optimizer.step()`.  `stepV` is the opaque Adam update of the value
optimizer and `g0` its cleared gradient buffer. -/
def optimise_value_function {P G : Type} (gp gv : DTensor → G → G)
    (stepV : P → G → P) (g0 : G) (returns state_values : List DTensor)
    (s : OptimState P G) : OptimState P G :=
  let value_loss := mse_loss state_values returns
  let s1 := { s with vgrad := g0 }
  let s2 := backward gp gv value_loss s1
  { s2 with vparams := stepV s2.vparams s2.vgrad }

end LunarA2C

/-! # Theorems -/

namespace LunarA2C

/-! ## Return Calculator lemmas -/

theorem length_dequeAppendleft (m : ℕ) (x : ℚ) (d : List ℚ) :
    (dequeAppendleft m x d).length = min (d.length + 1) m := by
  simp [dequeAppendleft, Nat.min_comm]

theorem length_returnsFull (g : ℚ) : ∀ rw : List ℚ,
    (returnsFull g rw).length = rw.length
  | [] => rfl
  | _ :: rest => by simp [returnsFull, length_returnsFull g rest]

theorem calc_eq_returnsFull (g : ℚ) (m : ℕ) : ∀ rw : List ℚ, rw.length ≤ m →
    calculate_discounted_returns rw m g = returnsFull g rw
  | [], _ => rfl
  | r :: rest, h => by
    have hr : rest.length ≤ m := by
      simp only [List.length_cons] at h; omega
    have ih := calc_eq_returnsFull g m rest hr
    simp only [calculate_discounted_returns, List.foldr_cons] at ih ⊢
    rw [ih, returnsFull]
    apply List.take_of_length_le
    simp only [List.length_cons, length_returnsFull]
    simpa using h

theorem length_calculate_discounted_returns (g : ℚ) (m : ℕ) : ∀ rw : List ℚ,
    (calculate_discounted_returns rw m g).length = min rw.length m
  | [] => by simp [calculate_discounted_returns]
  | r :: rest => by
    have ih := length_calculate_discounted_returns g m rest
    simp only [calculate_discounted_returns, List.foldr_cons] at ih ⊢
    rw [length_dequeAppendleft, ih, List.length_cons]
    omega

theorem returnsFull_last (g : ℚ) : ∀ rw : List ℚ, rw ≠ [] →
    (returnsFull g rw).getD (rw.length - 1) 0 = rw.getD (rw.length - 1) 0
  | [], h => absurd rfl h
  | r :: rest, _ => by
    cases rest with
    | nil => simp [returnsFull]
    | cons r2 rest2 =>
      have ih := returnsFull_last g (r2 :: rest2) (by simp)
      simp only [List.length_cons, Nat.add_sub_cancel] at ih ⊢
      rw [returnsFull]
      simpa using ih

theorem returnsFull_step (g : ℚ) : ∀ (rw : List ℚ) (t : ℕ), t + 1 < rw.length →
    (returnsFull g rw).getD t 0 = rw.getD t 0 + g * (returnsFull g rw).getD (t + 1) 0
  | [], t, h => by simp at h
  | r :: rest, 0, h => by
    cases rest with
    | nil => simp at h
    | cons r2 rest2 => simp [returnsFull]
  | r :: rest, t + 1, h => by
    have ih := returnsFull_step g rest t (by simp only [List.length_cons] at h; omega)
    simp only [returnsFull, List.getD_cons_succ]
    exact ih

/-- C1: for a reward sequence of length `T` with `1 ≤ T ≤ max_steps` and a
discount factor `γ ∈ (0,1)`, the Return Calculator's output satisfies
`returns[T-1] = r[T-1]` and `returns[t] = r[t] + γ * returns[t+1]` for all
`t < T-1`; in particular rewards `[1,1,1,1,1]` with `γ = 1` yield
`[5,4,3,2,1]`. -/
theorem return_calculator_recursion (rw : List ℚ) (m T : ℕ) (g : ℚ)
    (hT : rw.length = T) (hT1 : 1 ≤ T) (hTm : T ≤ m)
    (hg0 : 0 < g) (hg1 : g < 1) :
    (calculate_discounted_returns rw m g).getD (T - 1) 0 = rw.getD (T - 1) 0 ∧
    (∀ t, t < T - 1 →
      (calculate_discounted_returns rw m g).getD t 0 =
        rw.getD t 0 + g * (calculate_discounted_returns rw m g).getD (t + 1) 0) ∧
    calculate_discounted_returns [1, 1, 1, 1, 1] 5 1 = [5, 4, 3, 2, 1] := by
  have hlen : rw.length ≤ m := hT ▸ hTm
  have hne : rw ≠ [] := by
    intro hnil
    rw [hnil] at hT
    simp at hT
    omega
  rw [calc_eq_returnsFull g m rw hlen]
  refine ⟨?_, ?_, by with_unfolding_all rfl⟩
  · rw [← hT]
    exact returnsFull_last g rw hne
  · intro t ht
    exact returnsFull_step g rw t (by omega)

theorem return_calculator_recursion_witness :
    ([(1 : ℚ), 2, 3].length = 3 ∧ 1 ≤ 3 ∧ 3 ≤ 5 ∧ (0 : ℚ) < 1/2 ∧ (1 : ℚ)/2 < 1) ∧
    ((calculate_discounted_returns [(1 : ℚ), 2, 3] 5 (1/2)).getD (3 - 1) 0 =
        [(1 : ℚ), 2, 3].getD (3 - 1) 0 ∧
      (∀ t, t < 3 - 1 →
        (calculate_discounted_returns [(1 : ℚ), 2, 3] 5 (1/2)).getD t 0 =
          [(1 : ℚ), 2, 3].getD t 0 +
            (1/2) * (calculate_discounted_returns [(1 : ℚ), 2, 3] 5 (1/2)).getD (t + 1) 0) ∧
      calculate_discounted_returns [1, 1, 1, 1, 1] 5 1 = [5, 4, 3, 2, 1]) :=
  ⟨⟨by decide, by decide, by decide, by norm_num, by norm_num⟩,
    return_calculator_recursion [(1 : ℚ), 2, 3] 5 3 (1/2) (by decide) (by decide)
      (by decide) (by norm_num) (by norm_num)⟩

/-- C2 (counterexample): on rewards `[1,1,1]` with `max_steps = 2` the
Return Calculator's deque (whose `maxlen` is `max_steps`) drops an entry,
so the output length is 2, not the input length 3. -/
theorem return_length_counterexample :
    (calculate_discounted_returns [(1 : ℚ), 1, 1] 2 (1/2)).length = 2 ∧
      ¬ (2 : ℕ) = [(1 : ℚ), 1, 1].length :=
  ⟨by with_unfolding_all rfl, by decide⟩

/-- C2 (amended): the Return Calculator's output length is
`min T max_steps`, the deque capacity `max_steps` truncating reward
sequences longer than `max_steps` (so the output has length `T` exactly
when `T ≤ max_steps`, which is the only situation the program produces). -/
theorem return_length_min (rw : List ℚ) (m : ℕ) (g : ℚ) :
    (calculate_discounted_returns rw m g).length = min rw.length m :=
  length_calculate_discounted_returns g m rw

end LunarA2C

namespace LunarA2C

/-! ## Trajectory Generator lemmas -/

theorem generate_trajectory_aux_len_eq (tr : ℕ → StepRecord) :
    ∀ fuel i, (generate_trajectory_aux tr fuel i).1.length =
        (generate_trajectory_aux tr fuel i).2.1.length ∧
      (generate_trajectory_aux tr fuel i).2.1.length =
        (generate_trajectory_aux tr fuel i).2.2.length
  | 0, _ => ⟨rfl, rfl⟩
  | fuel + 1, i => by
    have ih := generate_trajectory_aux_len_eq tr fuel (i + 1)
    by_cases h : (tr i).done <;>
      simp [generate_trajectory_aux, h, ih.1, ih.2]

theorem generate_trajectory_aux_len_le (tr : ℕ → StepRecord) :
    ∀ fuel i, (generate_trajectory_aux tr fuel i).2.1.length ≤ fuel
  | 0, _ => le_refl 0
  | fuel + 1, i => by
    have ih := generate_trajectory_aux_len_le tr fuel (i + 1)
    by_cases h : (tr i).done <;> simp [generate_trajectory_aux, h] <;> omega

theorem generate_trajectory_aux_len_pos (tr : ℕ → StepRecord) :
    ∀ fuel i, 1 ≤ fuel → 1 ≤ (generate_trajectory_aux tr fuel i).2.1.length
  | 0, _, h => absurd h (by omega)
  | fuel + 1, i, _ => by
    by_cases h : (tr i).done <;> simp [generate_trajectory_aux, h]

theorem generate_trajectory_aux_len_run (tr : ℕ → StepRecord) :
    ∀ fuel i, (∀ j, j < fuel → (tr (i + j)).done = false) →
      (generate_trajectory_aux tr fuel i).2.1.length = fuel
  | 0, _, _ => rfl
  | fuel + 1, i, h => by
    have h0 : (tr i).done = false := by simpa using h 0 (Nat.succ_pos _)
    have ih := generate_trajectory_aux_len_run tr fuel (i + 1) (fun j hj => by
      have hx := h (j + 1) (by omega)
      rwa [show i + (j + 1) = i + 1 + j by omega] at hx)
    simp [generate_trajectory_aux, h0, ih]

theorem generate_trajectory_aux_len_done (tr : ℕ → StepRecord) :
    ∀ fuel i k, k < fuel → (tr (i + k)).done = true →
      (∀ j, j < k → (tr (i + j)).done = false) →
      (generate_trajectory_aux tr fuel i).2.1.length = k + 1
  | 0, _, k, hk, _, _ => absurd hk (Nat.not_lt_zero k)
  | fuel + 1, i, 0, _, hdone, _ => by
    have h0 : (tr i).done = true := by simpa using hdone
    simp [generate_trajectory_aux, h0]
  | fuel + 1, i, k + 1, hk, hdone, hmin => by
    have h0 : (tr i).done = false := by simpa using hmin 0 (Nat.succ_pos _)
    have ih := generate_trajectory_aux_len_done tr fuel (i + 1) k (by omega)
      (by rwa [show i + 1 + k = i + (k + 1) by omega])
      (fun j hj => by
        rw [show i + 1 + j = i + (j + 1) by omega]
        exact hmin (j + 1) (by omega))
    simp [generate_trajectory_aux, h0, ih]

/-- C5: for `max_steps ≥ 1`, the Trajectory Generator stops at the first
step on which the environment reports termination — if the first `done`
is at step `k` the trajectory has length `k + 1` (the terminating step's
record is appended before the break), in particular length 1 when
termination is reported on the very first step — and runs exactly
`max_steps` steps when no step reports termination. -/
theorem trajectory_generator_stops (tr : ℕ → StepRecord) (m : ℕ) (hm : 1 ≤ m) :
    ((∀ j, j < m → (tr j).done = false) →
      (generate_trajectory tr m).2.1.length = m) ∧
    (∀ k, k < m → (tr k).done = true → (∀ j, j < k → (tr j).done = false) →
      (generate_trajectory tr m).2.1.length = k + 1) ∧
    ((tr 0).done = true → (generate_trajectory tr m).2.1.length = 1) := by
  refine ⟨?_, ?_, ?_⟩
  · intro h
    exact generate_trajectory_aux_len_run tr m 0 (fun j hj => by
      simpa using h j hj)
  · intro k hk hdone hmin
    exact generate_trajectory_aux_len_done tr m 0 k hk (by simpa using hdone)
      (fun j hj => by simpa using hmin j hj)
  · intro h0
    exact generate_trajectory_aux_len_done tr m 0 0 (by omega) (by simpa using h0)
      (fun j hj => absurd hj (Nat.not_lt_zero j))

theorem trajectory_generator_stops_witness :
    (generate_trajectory (fun i => ⟨1, 2, 3, i == 1⟩) 3).2.1.length = 1 + 1 :=
  (trajectory_generator_stops (fun i => ⟨1, 2, 3, i == 1⟩) 3 (by decide)).2.1
    1 (by decide) (by decide) (by decide)

/-- C10: for `max_steps ≥ 1`, the three sequences returned by the
Trajectory Generator (log-probabilities, rewards, value estimates) have
one common length `L` with `1 ≤ L ≤ max_steps`. -/
theorem trajectory_lengths_invariant (tr : ℕ → StepRecord) (m : ℕ) (hm : 1 ≤ m) :
    (generate_trajectory tr m).1.length = (generate_trajectory tr m).2.1.length ∧
    (generate_trajectory tr m).2.1.length = (generate_trajectory tr m).2.2.length ∧
    1 ≤ (generate_trajectory tr m).2.1.length ∧
    (generate_trajectory tr m).2.1.length ≤ m :=
  ⟨(generate_trajectory_aux_len_eq tr m 0).1,
    (generate_trajectory_aux_len_eq tr m 0).2,
    generate_trajectory_aux_len_pos tr m 0 hm,
    generate_trajectory_aux_len_le tr m 0⟩

theorem trajectory_lengths_invariant_witness :
    (generate_trajectory (fun _ => ⟨1, 2, 3, false⟩) 2).1.length =
        (generate_trajectory (fun _ => ⟨1, 2, 3, false⟩) 2).2.1.length ∧
      (generate_trajectory (fun _ => ⟨1, 2, 3, false⟩) 2).2.1.length =
        (generate_trajectory (fun _ => ⟨1, 2, 3, false⟩) 2).2.2.length ∧
      1 ≤ (generate_trajectory (fun _ => ⟨1, 2, 3, false⟩) 2).2.1.length ∧
      (generate_trajectory (fun _ => ⟨1, 2, 3, false⟩) 2).2.1.length ≤ 2 :=
  trajectory_lengths_invariant (fun _ => ⟨1, 2, 3, false⟩) 2 (by decide)

end LunarA2C

namespace LunarA2C

/-! ## Return Standardizer lemmas -/

theorem sum_map_sub_div (c d : ℝ) : ∀ l : List ℝ,
    (l.map (fun x => (x - c) / d)).sum = (l.sum - l.length * c) / d
  | [] => by simp
  | x :: rest => by
    simp only [List.map_cons, List.sum_cons, sum_map_sub_div c d rest,
      List.length_cons, Nat.cast_add, Nat.cast_one]
    ring

theorem sum_map_div (d : ℝ) (f : ℝ → ℝ) : ∀ l : List ℝ,
    (l.map (fun x => f x / d)).sum = (l.map f).sum / d
  | [] => by simp
  | x :: rest => by
    simp only [List.map_cons, List.sum_cons, sum_map_div d f rest]
    ring

theorem listMeanR_center (l : List ℝ) (d : ℝ) (hl : l.length ≠ 0) :
    listMeanR (l.map (fun x => (x - listMeanR l) / d)) = 0 := by
  have hn : (l.length : ℝ) ≠ 0 := Nat.cast_ne_zero.mpr hl
  unfold listMeanR
  rw [List.length_map, sum_map_sub_div]
  have hz : l.sum - (l.length : ℝ) * (l.sum / l.length) = 0 := by
    field_simp
  rw [hz, zero_div, zero_div]

theorem sampleVar_nonneg (l : List ℝ) (v : ℝ) (hv : sampleVar l = some v) :
    0 ≤ v := by
  unfold sampleVar at hv
  by_cases h1 : l.length ≤ 1
  · simp [h1] at hv
  · simp only [h1, if_false, Option.some.injEq] at hv
    rw [← hv]
    apply div_nonneg
    · exact List.sum_nonneg (by
        intro x hx
        obtain ⟨y, _, hy⟩ := List.mem_map.mp hx
        rw [← hy]
        positivity)
    · have : 2 ≤ l.length := by omega
      have : (2 : ℝ) ≤ (l.length : ℝ) := by exact_mod_cast this
      linarith

theorem sampleVar_center_div (l : List ℝ) (v d : ℝ) (hv : sampleVar l = some v)
    (hd : d ≠ 0) :
    sampleVar (l.map (fun x => (x - listMeanR l) / d)) = some (v / d ^ 2) := by
  by_cases h1 : l.length ≤ 1
  · simp [sampleVar, h1] at hv
  · have hl : l.length ≠ 0 := by omega
    have hmean := listMeanR_center l d hl
    unfold sampleVar at hv ⊢
    simp only [h1, if_false, Option.some.injEq] at hv
    simp only [List.length_map, h1, if_false, Option.some.injEq, hmean]
    rw [List.map_map]
    have hfun : ((fun x => (x - 0) ^ 2) ∘ fun x => (x - listMeanR l) / d) =
        fun x => ((x - listMeanR l) ^ 2) / d ^ 2 := by
      funext x
      simp [div_pow]
    rw [hfun, sum_map_div (d ^ 2) (fun x => (x - listMeanR l) ^ 2) l, ← hv]
    ring

theorem std_center_div (l : List ℝ) (v d : ℝ) (hv : sampleVar l = some v)
    (hd : 0 < d) :
    std (l.map (fun x => (x - listMeanR l) / d)) = some (Real.sqrt v / d) := by
  unfold std
  rw [sampleVar_center_div l v d hv (ne_of_gt hd)]
  simp only [Option.map_some']
  congr 1
  rw [Real.sqrt_div (sampleVar_nonneg l v hv), Real.sqrt_sq hd.le]

theorem eps32_pos : (0 : ℝ) < eps32 := by
  unfold eps32
  positivity

/-- C3: on a constant sequence of length at least 2 the Return
Standardizer divides by the nonzero denominator `0 + eps` (the standard
deviation is exactly 0 and the machine-epsilon term keeps the denominator
away from zero) and returns the all-zero sequence — a finite, bounded
output. -/
theorem standardizer_constant_safe (v : ℝ) (T : ℕ) (hT : 2 ≤ T) :
    std (List.replicate T v) = some 0 ∧
    (0 : ℝ) + eps32 ≠ 0 ∧
    standardise_returns (List.replicate T v) = some (List.replicate T 0) := by
  have hT0 : (T : ℝ) ≠ 0 := Nat.cast_ne_zero.mpr (by omega)
  have hmean : listMeanR (List.replicate T v) = v := by
    unfold listMeanR
    rw [List.sum_replicate, List.length_replicate, nsmul_eq_mul, mul_comm,
      mul_div_assoc, div_self hT0, mul_one]
  have hvar : sampleVar (List.replicate T v) = some 0 := by
    unfold sampleVar
    have h1 : ¬ (List.replicate T v).length ≤ 1 := by
      rw [List.length_replicate]; omega
    simp only [h1, if_false, Option.some.injEq, hmean]
    rw [List.map_replicate]
    simp
  have hstd : std (List.replicate T v) = some 0 := by
    unfold std
    rw [hvar]
    simp [Real.sqrt_zero]
  refine ⟨hstd, by have := eps32_pos; linarith, ?_⟩
  unfold standardise_returns
  rw [hstd]
  simp only [Option.map_some', Option.some.injEq, hmean]
  rw [List.map_replicate]
  simp

theorem standardizer_constant_safe_witness :
    std (List.replicate 2 (5 : ℝ)) = some 0 ∧
    (0 : ℝ) + eps32 ≠ 0 ∧
    standardise_returns (List.replicate 2 (5 : ℝ)) = some (List.replicate 2 0) :=
  standardizer_constant_safe 5 2 (by omega)

/-- C9: on a single-element sequence the Bessel-corrected standard
deviation divides by `T - 1 = 0`; `torch.std` yields `NaN` and the whole
standardized output is `NaN` (modelled by `none`) — not a finite
number. -/
theorem standardizer_single_element (v : ℝ) :
    std [v] = none ∧ standardise_returns [v] = none := by
  constructor
  · unfold std sampleVar
    simp
  · unfold standardise_returns std sampleVar
    simp

end LunarA2C

namespace LunarA2C

/-- C4 (amended): for every non-constant sequence (sample variance
`v ≠ 0`) the Return Standardizer's output has mean exactly 0 and standard
deviation exactly `σ / (σ + eps)` where `σ` is the input's sample
standard deviation, so its deviation from 1 is exactly `eps / (σ + eps)`
— within floating-point tolerance of 1 only when `σ` is large relative to
the epsilon (for `σ ≥ 1` the deviation from 1 is at most `eps`); for
inputs whose spread is comparable to the epsilon the output's standard
deviation is far from 1. -/
theorem standardizer_nonconstant_amended (l : List ℝ) (v : ℝ)
    (hv : sampleVar l = some v) (hnz : v ≠ 0) :
    standardise_returns l =
      some (l.map (fun x => (x - listMeanR l) / (Real.sqrt v + eps32))) ∧
    listMeanR (l.map (fun x => (x - listMeanR l) / (Real.sqrt v + eps32))) = 0 ∧
    std (l.map (fun x => (x - listMeanR l) / (Real.sqrt v + eps32))) =
      some (Real.sqrt v / (Real.sqrt v + eps32)) ∧
    |Real.sqrt v / (Real.sqrt v + eps32) - 1| = eps32 / (Real.sqrt v + eps32) ∧
    (1 ≤ Real.sqrt v → |Real.sqrt v / (Real.sqrt v + eps32) - 1| ≤ eps32) := by
  have he := eps32_pos
  have hlen : ¬ l.length ≤ 1 := by
    intro h1
    unfold sampleVar at hv
    simp [h1] at hv
  have hl : l.length ≠ 0 := by omega
  have hs0 : (0 : ℝ) ≤ Real.sqrt v := Real.sqrt_nonneg v
  have hd : 0 < Real.sqrt v + eps32 := by linarith
  have hdev : Real.sqrt v / (Real.sqrt v + eps32) - 1 =
      -(eps32 / (Real.sqrt v + eps32)) := by
    field_simp
  have habs : |Real.sqrt v / (Real.sqrt v + eps32) - 1| =
      eps32 / (Real.sqrt v + eps32) := by
    rw [hdev, abs_neg, abs_of_nonneg (by positivity)]
  refine ⟨?_, listMeanR_center l _ hl, std_center_div l v _ hv hd, habs, ?_⟩
  · unfold standardise_returns std
    rw [hv]
    rfl
  · intro hs
    rw [habs]
    exact div_le_self he.le (by linarith)

theorem standardizer_nonconstant_amended_witness :
    (sampleVar [-(1 : ℝ), 0, 1] = some 1 ∧ (1 : ℝ) ≠ 0 ∧ 1 ≤ Real.sqrt 1) ∧
    (standardise_returns [-(1 : ℝ), 0, 1] =
        some ([-(1 : ℝ), 0, 1].map
          (fun x => (x - listMeanR [-(1 : ℝ), 0, 1]) / (Real.sqrt 1 + eps32))) ∧
      listMeanR ([-(1 : ℝ), 0, 1].map
          (fun x => (x - listMeanR [-(1 : ℝ), 0, 1]) / (Real.sqrt 1 + eps32))) = 0 ∧
      std ([-(1 : ℝ), 0, 1].map
          (fun x => (x - listMeanR [-(1 : ℝ), 0, 1]) / (Real.sqrt 1 + eps32))) =
        some (Real.sqrt 1 / (Real.sqrt 1 + eps32)) ∧
      |Real.sqrt 1 / (Real.sqrt 1 + eps32) - 1| = eps32 / (Real.sqrt 1 + eps32) ∧
      |Real.sqrt 1 / (Real.sqrt 1 + eps32) - 1| ≤ eps32) := by
  have hsum : List.sum [-(1 : ℝ), 0, 1] = 0 := by
    simp only [List.sum_cons, List.sum_nil]
    ring
  have hmean : listMeanR [-(1 : ℝ), 0, 1] = 0 := by
    unfold listMeanR
    rw [hsum, zero_div]
  have hvar : sampleVar [-(1 : ℝ), 0, 1] = some 1 := by
    unfold sampleVar
    have h1 : ¬ ([-(1 : ℝ), 0, 1] : List ℝ).length ≤ 1 := by simp
    simp only [h1, if_false, hmean, Option.some.injEq, List.map_cons,
      List.map_nil, List.sum_cons, List.sum_nil, List.length_cons,
      List.length_nil]
    push_cast
    ring
  have hone : 1 ≤ Real.sqrt 1 := by rw [Real.sqrt_one]
  have h := standardizer_nonconstant_amended [-(1 : ℝ), 0, 1] 1 hvar one_ne_zero
  exact ⟨⟨hvar, one_ne_zero, hone⟩,
    h.1, h.2.1, h.2.2.1, h.2.2.2.1, h.2.2.2.2 hone⟩

/-- C4 (counterexample): the non-constant length-3 sequence
`[-eps, 0, eps]` (spread comparable to the machine epsilon) is mapped by
the Return Standardizer to `[-1/2, 0, 1/2]`, whose standard deviation is
`1/2` — not within any floating-point tolerance of 1 (it is not even
within `1/100`). -/
theorem standardizer_tolerance_counterexample :
    standardise_returns [-eps32, 0, eps32] = some [-(1 / 2), 0, (1 : ℝ) / 2] ∧
    std [-(1 / 2), 0, (1 : ℝ) / 2] = some (1 / 2) ∧
    ¬ |(1 : ℝ) / 2 - 1| ≤ 1 / 100 := by
  have he := eps32_pos
  have hne : eps32 ≠ 0 := ne_of_gt he
  have hsum : List.sum [-eps32, 0, eps32] = 0 := by
    simp only [List.sum_cons, List.sum_nil]
    ring
  have hmean : listMeanR [-eps32, 0, eps32] = 0 := by
    unfold listMeanR
    rw [hsum, zero_div]
  have hvar : sampleVar [-eps32, 0, eps32] = some (eps32 ^ 2) := by
    unfold sampleVar
    have h1 : ¬ ([-eps32, 0, eps32] : List ℝ).length ≤ 1 := by simp
    simp only [h1, if_false, hmean, Option.some.injEq, List.map_cons,
      List.map_nil, List.sum_cons, List.sum_nil, List.length_cons,
      List.length_nil]
    push_cast
    ring
  have hstd : std [-eps32, 0, eps32] = some eps32 := by
    unfold std
    rw [hvar]
    simp [Real.sqrt_sq he.le]
  have hsum2 : List.sum [-(1 / 2), 0, (1 : ℝ) / 2] = 0 := by
    simp only [List.sum_cons, List.sum_nil]
    ring
  have hmean2 : listMeanR [-(1 / 2), 0, (1 : ℝ) / 2] = 0 := by
    unfold listMeanR
    rw [hsum2, zero_div]
  refine ⟨?_, ?_, ?_⟩
  · unfold standardise_returns
    rw [hstd]
    simp only [Option.map_some', Option.some.injEq, hmean, List.map_cons,
      List.map_nil, List.cons.injEq, and_true]
    have hd : eps32 + eps32 ≠ 0 := by linarith
    refine ⟨?_, ?_, ?_⟩
    · rw [div_eq_iff hd]
      ring
    · rw [div_eq_iff hd]
      ring
    · rw [div_eq_iff hd]
      ring
  · unfold std sampleVar
    have h1 : ¬ ([-(1 / 2), 0, (1 : ℝ) / 2] : List ℝ).length ≤ 1 := by simp
    simp only [h1, if_false, hmean2, List.map_cons, List.map_nil,
      List.sum_cons, List.sum_nil, List.length_cons, List.length_nil,
      Option.map_some']
    push_cast
    have hq : ((-(1 / 2) - 0) ^ 2 + ((0 - 0) ^ 2 + (((1 : ℝ) / 2 - 0) ^ 2 + 0))) /
        ((3 : ℝ) - 1) = (1 / 2) ^ 2 := by
      ring
    rw [hq]
    simp only [Option.map_some', Option.some.injEq]
    exact Real.sqrt_sq (by norm_num)
  · rw [show (1 : ℝ) / 2 - 1 = -(1 / 2) by norm_num, abs_neg,
      abs_of_nonneg (by norm_num)]
    norm_num

end LunarA2C

namespace LunarA2C

/-! ## Training Driver lemmas -/

theorem length_lastN (n : ℕ) (l : List ℚ) : (lastN n l).length = min n l.length := by
  simp only [lastN, List.length_drop]
  omega

theorem lastN_lastN_append (n : ℕ) (l : List ℚ) (x : ℚ) :
    lastN n (lastN n l ++ [x]) = lastN n (l ++ [x]) := by
  rcases le_or_lt l.length n with h | h
  · have hz : l.length - n = 0 := Nat.sub_eq_zero_of_le h
    simp [lastN, hz]
  · rcases Nat.eq_zero_or_pos n with hn | hn
    · subst hn
      have h2 : ∀ ys : List ℚ, lastN 0 ys = [] := by
        intro ys
        simp [lastN]
      rw [h2, h2]
    · have hlen : (lastN n l).length = n := by
        rw [length_lastN]
        omega
      have key : ∀ d : List ℚ, d.length = n → lastN n (d ++ [x]) = d.drop 1 ++ [x] := by
        intro d hd
        simp only [lastN, List.length_append, hd, List.length_cons, List.length_nil]
        rw [List.drop_append_of_le_length (by omega)]
        have h1 : n + (0 + 1) - n = 1 := by omega
        rw [h1]
      rw [key (lastN n l) hlen]
      have rhs : lastN n (l ++ [x]) = l.drop (l.length + 1 - n) ++ [x] := by
        simp only [lastN, List.length_append, List.length_cons, List.length_nil]
        rw [List.drop_append_of_le_length (by omega)]
      rw [rhs]
      simp only [lastN, List.drop_drop]
      have hidx : l.length - n + 1 = l.length + 1 - n := by omega
      rw [hidx]

theorem train_agent_aux_stop (epTraj : ℕ → ℕ → StepRecord) (m : ℕ) (th : ℚ) (k : ℕ) :
    ∀ fuel i recent scores,
      recent = lastN 100 ((List.range i).map (episodeScore epTraj m)) →
      i < k → k ≤ i + fuel →
      (∀ j, i < j → j < k → ¬ stopCond (episodeScore epTraj m) th j) →
      stopCond (episodeScore epTraj m) th k →
      (train_agent_aux epTraj m (some th) fuel i recent scores).length =
        scores.length + (k - i)
  | 0, i, _, _, _, hik, hki, _, _ => absurd hki (by omega)
  | fuel + 1, i, recent, scores, hrec, hik, hki, hbefore, hstop => by
    have hwin : windowAppend recent (episodeScore epTraj m i) =
        lastN 100 ((List.range (i + 1)).map (episodeScore epTraj m)) := by
      rw [hrec, windowAppend, lastN_lastN_append]
      congr 1
      rw [List.range_succ, List.map_append]
      rfl
    have hcond : ((windowAppend recent (episodeScore epTraj m i)).length = 100 ∧
        th ≤ listMean (windowAppend recent (episodeScore epTraj m i))) ↔
        stopCond (episodeScore epTraj m) th (i + 1) := by
      rw [hwin]
      exact Iff.rfl
    rcases Nat.lt_or_ge (i + 1) k with hlt | hge
    · have hnostop : ¬ stopCond (episodeScore epTraj m) th (i + 1) :=
        hbefore (i + 1) (by omega) hlt
      have ih := train_agent_aux_stop epTraj m th k fuel (i + 1)
        (windowAppend recent (episodeScore epTraj m i))
        (scores ++ [episodeScore epTraj m i]) hwin hlt (by omega)
        (fun j hj1 hj2 => hbefore j (by omega) hj2) hstop
      simp only [train_agent_aux]
      rw [if_neg (by
        rw [hcond]
        exact hnostop)]
      rw [ih]
      simp only [List.length_append, List.length_cons, List.length_nil]
      omega
    · have hk1 : i + 1 = k := by omega
      have hstop1 : stopCond (episodeScore epTraj m) th (i + 1) := hk1 ▸ hstop
      simp only [train_agent_aux]
      rw [if_pos (hcond.mpr hstop1)]
      simp only [List.length_append, List.length_cons, List.length_nil]
      omega

/-- C6: with an early-stopping threshold configured, if `k` is the first
episode (`100 ≤ k ≤ num_episodes`) at whose end the rolling window holds
exactly 100 scores with mean at least the threshold, then `train_agent`
terminates its episode loop at episode `k` and the returned score history
has length exactly `k` — one entry per episode actually run. -/
theorem train_agent_early_stopping (epTraj : ℕ → ℕ → StepRecord)
    (N m k : ℕ) (th : ℚ) (h100 : 100 ≤ k) (hkN : k ≤ N)
    (hmean : th ≤ listMean (lastN 100 ((List.range k).map (episodeScore epTraj m))))
    (hbefore : ∀ j, 100 ≤ j → j < k →
      listMean (lastN 100 ((List.range j).map (episodeScore epTraj m))) < th) :
    (train_agent epTraj N m (some th)).length = k := by
  have hstop : stopCond (episodeScore epTraj m) th k := by
    refine ⟨?_, hmean⟩
    rw [length_lastN, List.length_map, List.length_range]
    omega
  have hres := train_agent_aux_stop epTraj m th k N 0 [] []
    (by simp [lastN]) (by omega) (by omega)
    (fun j hj1 hj2 hsc => by
      rcases Nat.lt_or_ge j 100 with hj | hj
      · have hlen := hsc.1
        rw [length_lastN, List.length_map, List.length_range] at hlen
        omega
      · exact absurd hsc.2 (not_le.mpr (hbefore j hj hj2)))
    hstop
  simpa using hres

theorem train_agent_early_stopping_witness :
    (train_agent (fun _ _ => ⟨1, 2, 1, true⟩) 100 1 (some 1)).length = 100 := by
  have hscore : ∀ i, episodeScore (fun _ _ => ⟨1, 2, 1, true⟩) 1 i = 2 := by
    intro i
    with_unfolding_all rfl
  have hmap : (List.range 100).map (episodeScore (fun _ _ => ⟨1, 2, 1, true⟩) 1) =
      List.replicate 100 (2 : ℚ) := by
    rw [List.eq_replicate]
    refine ⟨by simp, ?_⟩
    intro b hb
    obtain ⟨i, _, hi⟩ := List.mem_map.mp hb
    rw [← hi, hscore]
  have hlast : lastN 100 (List.replicate 100 (2 : ℚ)) = List.replicate 100 2 := by
    simp [lastN]
  have hmean : (1 : ℚ) ≤ listMean (lastN 100 ((List.range 100).map
      (episodeScore (fun _ _ => ⟨1, 2, 1, true⟩) 1))) := by
    rw [hmap, hlast]
    unfold listMean
    rw [List.sum_replicate, List.length_replicate, nsmul_eq_mul]
    norm_num
  exact train_agent_early_stopping (fun _ _ => ⟨1, 2, 1, true⟩) 100 1 100 1
    (by omega) (by omega) hmean
    (fun j hj1 hj2 => absurd (lt_of_le_of_lt hj1 hj2) (lt_irrefl 100))

end LunarA2C

namespace LunarA2C

/-! ## Evaluation Driver lemmas -/

theorem evaluateFrom_eq (epTraj : ℕ → ℕ → ℚ × Bool) (m : ℕ) (hm : 1 ≤ m) :
    ∀ n i, evaluateFrom epTraj m i n =
      some ((List.range n).map (fun j => episodeReward (epTraj (i + j)) m),
        (List.range n).map (fun j => episodeSteps (epTraj (i + j)) m))
  | 0, _ => rfl
  | n + 1, i => by
    have hep : evalEpisode (epTraj i) m =
        some (episodeReward (epTraj i) m, episodeSteps (epTraj i) m) := by
      unfold evalEpisode episodeReward episodeSteps
      rw [if_neg (by omega)]
    have ih := evaluateFrom_eq epTraj m hm n (i + 1)
    simp only [evaluateFrom, hep, ih]
    rw [List.range_succ_eq_map, List.map_cons, List.map_cons, List.map_map,
      List.map_map]
    have hmapR : List.map ((fun j => episodeReward (epTraj (i + j)) m) ∘ Nat.succ)
        (List.range n) =
        List.map (fun j => episodeReward (epTraj (i + 1 + j)) m) (List.range n) :=
      List.map_congr_left (fun j _ => by
        simp only [Function.comp_apply, Nat.succ_eq_add_one]
        rw [show i + (j + 1) = i + 1 + j by omega])
    have hmapS : List.map ((fun j => episodeSteps (epTraj (i + j)) m) ∘ Nat.succ)
        (List.range n) =
        List.map (fun j => episodeSteps (epTraj (i + 1 + j)) m) (List.range n) :=
      List.map_congr_left (fun j _ => by
        simp only [Function.comp_apply, Nat.succ_eq_add_one]
        rw [show i + (j + 1) = i + 1 + j by omega])
    rw [hmapR, hmapS]
    simp

/-- C8: for `num_episodes ≥ 1` and `max_steps ≥ 1` the Evaluation Driver
returns two parallel sequences of length exactly `num_episodes` — entry
`i` being episode `i`'s accumulated reward and its number of steps before
termination or truncation — and reports exactly their arithmetic means;
it performs no parameter update (no optimizer state occurs in
`evaluate`). -/
theorem evaluate_driver_spec (epTraj : ℕ → ℕ → ℚ × Bool) (N m : ℕ)
    (hN : 1 ≤ N) (hm : 1 ≤ m) :
    evaluate epTraj N m =
      some ((List.range N).map (fun i => episodeReward (epTraj i) m),
        (List.range N).map (fun i => episodeSteps (epTraj i) m),
        listMean ((List.range N).map (fun i => episodeReward (epTraj i) m)),
        natListMean ((List.range N).map (fun i => episodeSteps (epTraj i) m))) ∧
    ((List.range N).map (fun i => episodeReward (epTraj i) m)).length = N ∧
    ((List.range N).map (fun i => episodeSteps (epTraj i) m)).length = N ∧
    (∀ i, i < N →
      ((List.range N).map (fun j => episodeReward (epTraj j) m)).getD i 0 =
        episodeReward (epTraj i) m ∧
      ((List.range N).map (fun j => episodeSteps (epTraj j) m)).getD i 0 =
        episodeSteps (epTraj i) m) := by
  have he := evaluateFrom_eq epTraj m hm N 0
  simp only [Nat.zero_add] at he
  refine ⟨?_, by simp, by simp, ?_⟩
  · unfold evaluate
    rw [he]
  · intro i hi
    constructor <;>
      simp [List.getD_eq_getElem?_getD, List.getElem?_map, List.getElem?_range hi]

set_option maxRecDepth 100000 in
theorem evaluate_driver_spec_witness :
    evaluate (fun _ _ => ((2 : ℚ), false)) 10 50 =
      some (List.replicate 10 100, List.replicate 10 50, 100, 50) :=
  ((evaluate_driver_spec (fun _ _ => ((2 : ℚ), false)) 10 50 (by omega)
    (by omega)).1).trans (by with_unfolding_all rfl)

/-! ## Optimisation-step frame lemmas -/

theorem mem_dsum_deps (k : NetKind) : ∀ l : List DTensor,
    k ∈ (dsum l).deps → ∃ t ∈ l, k ∈ t.deps
  | [], h => by simp [dsum] at h
  | t :: rest, h => by
    simp only [dsum, List.foldr_cons, DTensor.add, Finset.mem_union] at h
    rcases h with h | h
    · exact ⟨t, List.mem_cons_self t rest, h⟩
    · obtain ⟨u, hu, hk⟩ := mem_dsum_deps k rest h
      exact ⟨u, List.mem_cons_of_mem t hu, hk⟩

/-- C7: the critic's gradient step (`optimise_value_function`) changes
only the value module's parameter and gradient buffers and leaves the
policy module's untouched, and the actor's gradient step
(`optimise_policy`) changes only the policy module's buffers and leaves
the value module's untouched — the actor's backward pass cannot reach the
value module because the advantages are detached.  The inputs are
quantified over everything the rollout can produce: log-probabilities
whose graphs reach only the policy module, value estimates whose graphs
reach only the value module, and standardized returns with no graph. -/
theorem optimise_no_crosstalk {P G : Type} (gp gv : DTensor → G → G)
    (stepP stepV : P → G → P) (gz : G)
    (log_probs returns state_values : List DTensor) (s : OptimState P G)
    (hlp : ∀ lp ∈ log_probs, NetKind.valueNet ∉ lp.deps)
    (hsv : ∀ t ∈ state_values, NetKind.policyNet ∉ t.deps)
    (hret : ∀ t ∈ returns, NetKind.policyNet ∉ t.deps) :
    (optimise_value_function gp gv stepV gz returns state_values s).pparams =
      s.pparams ∧
    (optimise_policy gp gv stepP gz log_probs returns state_values s).vparams =
      s.vparams ∧
    (optimise_value_function gp gv stepV gz returns state_values s).pgrad =
      s.pgrad ∧
    (optimise_policy gp gv stepP gz log_probs returns state_values s).vgrad =
      s.vgrad := by
  have hvloss : NetKind.policyNet ∉ (mse_loss state_values returns).deps := by
    intro hmem
    simp only [mse_loss] at hmem
    obtain ⟨t, ht, hk⟩ := mem_dsum_deps _ _ hmem
    obtain ⟨p, hp, hteq⟩ := List.mem_map.mp ht
    rw [← hteq] at hk
    simp only [DTensor.mul, DTensor.sub, Finset.mem_union] at hk
    rcases hk with (hk | hk) | (hk | hk)
    · exact hsv p.1 (List.of_mem_zip hp).1 hk
    · exact hret p.2 (List.of_mem_zip hp).2 hk
    · exact hsv p.1 (List.of_mem_zip hp).1 hk
    · exact hret p.2 (List.of_mem_zip hp).2 hk
  have hploss : NetKind.valueNet ∉
      (dsum ((log_probs.zip ((returns.zip state_values).map
        (fun rv => (rv.1.sub rv.2.detach).detach))).map
        (fun la => la.1.neg.mul la.2))).deps := by
    intro hmem
    obtain ⟨t, ht, hk⟩ := mem_dsum_deps _ _ hmem
    obtain ⟨la, hla, hteq⟩ := List.mem_map.mp ht
    rw [← hteq] at hk
    simp only [DTensor.mul, DTensor.neg, Finset.mem_union] at hk
    rcases hk with hk | hk
    · exact hlp la.1 (List.of_mem_zip hla).1 hk
    · obtain ⟨rv, _, hrv⟩ := List.mem_map.mp (List.of_mem_zip hla).2
      rw [← hrv] at hk
      simp [DTensor.detach] at hk
  refine ⟨rfl, rfl, ?_, ?_⟩
  · simp only [optimise_value_function, backward]
    rw [if_neg hvloss]
  · simp only [optimise_policy, backward]
    rw [if_neg hploss]

theorem optimise_no_crosstalk_witness :
    (optimise_value_function (fun t g => g + t.val) (fun t g => g + t.val)
        (fun p g => p - g) 0 [⟨2, ∅⟩] [⟨3, {NetKind.valueNet}⟩]
        (⟨10, 20, 30, 40⟩ : OptimState ℚ ℚ)).pparams =
      (⟨10, 20, 30, 40⟩ : OptimState ℚ ℚ).pparams ∧
    (optimise_policy (fun t g => g + t.val) (fun t g => g + t.val)
        (fun p g => p - g) 0 [⟨1, {NetKind.policyNet}⟩] [⟨2, ∅⟩]
        [⟨3, {NetKind.valueNet}⟩]
        (⟨10, 20, 30, 40⟩ : OptimState ℚ ℚ)).vparams =
      (⟨10, 20, 30, 40⟩ : OptimState ℚ ℚ).vparams ∧
    (optimise_value_function (fun t g => g + t.val) (fun t g => g + t.val)
        (fun p g => p - g) 0 [⟨2, ∅⟩] [⟨3, {NetKind.valueNet}⟩]
        (⟨10, 20, 30, 40⟩ : OptimState ℚ ℚ)).pgrad =
      (⟨10, 20, 30, 40⟩ : OptimState ℚ ℚ).pgrad ∧
    (optimise_policy (fun t g => g + t.val) (fun t g => g + t.val)
        (fun p g => p - g) 0 [⟨1, {NetKind.policyNet}⟩] [⟨2, ∅⟩]
        [⟨3, {NetKind.valueNet}⟩]
        (⟨10, 20, 30, 40⟩ : OptimState ℚ ℚ)).vgrad =
      (⟨10, 20, 30, 40⟩ : OptimState ℚ ℚ).vgrad :=
  optimise_no_crosstalk (fun t g => g + t.val) (fun t g => g + t.val)
    (fun p g => p - g) (fun p g => p - g) 0 [⟨1, {NetKind.policyNet}⟩]
    [⟨2, ∅⟩] [⟨3, {NetKind.valueNet}⟩] (⟨10, 20, 30, 40⟩ : OptimState ℚ ℚ)
    (by decide) (by decide) (by decide)

end LunarA2C
